import Mathlib

/-! The repository circle: a point generator, a line-command session handler
and a rasteriser.

A shallow embedding of the Go packages `server` (server/server.go) and
`client` (client/client.go).

Conventions of the embedding.

* A `float64` value is an element of an ordered field `α`.  The generator is
  read over exact arithmetic at `α = ℝ`, with `math.Cos`, `math.Sin`, `math.Pi`
  instantiated by `Real.cos`, `Real.sin`, `Real.pi`; the library functions are
  parameters of `position`, so every definition stays executable (for instance
  at `α = ℚ`).  The rasteriser rounds the result of each of its float64
  operations to the nearest float64 (`client.round64`).
* `time.Duration` is an integer number of nanoseconds.
* A control connection is described by `server.Net`: the lines that
  `rw.ReadString` returns with a nil error (after the last of them the read
  fails), and, for each fallible socket operation, whether it fails.
* An emitter goroutine runs until the context handed to it is cancelled; the
  embedding records, for every cancel handle of a session, the state of its
  context.
-/

namespace server

/-! ## server/server.go -/

/-- Revolutions per second: `const RPS = float64(1.0)`. -/
def RPS {α : Type} [Field α] : α := 1

/-- Point in Euclidian space: `type point struct { X, Y float64 }`. -/
structure point (α : Type) where
  X : α
  Y : α

/-- The constant `time.Second`, in nanoseconds. -/
def Second : Int := 1000000000

/-- The method `time.Duration.Seconds` of the Go library:
`sec := d / Second; nsec := d % Second; return float64(sec) + float64(nsec)/1e9`,
with Go's truncated integer division and remainder. -/
def Seconds {α : Type} [Field α] (d : Int) : α :=
  ((d.tdiv Second : Int) : α) + ((d.tmod Second : Int) : α) / 1000000000

/-- Return the current position in the unit circle:
`radians := (d.Seconds() / RPS) * 2.0 * math.Pi`,
`point{X: math.Cos(radians), Y: math.Sin(radians)}`. -/
def position {α : Type} [Field α] (cos sin : α → α) (pi : α) (d : Int) : point α :=
  let radians := (Seconds d / RPS) * 2 * pi
  { X := cos radians, Y := sin radians }

/-- The constant `floatDelta = float64(0.0000000001)` of server_test.go. -/
def floatDelta {α : Type} [Field α] : α := 1 / 10000000000

/-- The check `assert.InDelta(t, expected, actual, delta)` of the tests: it
passes when the difference lies within `delta` on either side. -/
def InDelta {α : Type} [LinearOrderedField α] (expected actual delta : α) : Prop :=
  ¬ (expected - actual < -delta ∨ expected - actual > delta)

/-- Go's `unicode.IsSpace`: the white space characters of Unicode. -/
def isSpace (c : Char) : Bool :=
  let n := c.toNat
  (9 ≤ n && n ≤ 13) || n = 32 || n = 0x85 || n = 0xA0 || n = 0x1680 ||
  (0x2000 ≤ n && n ≤ 0x200a) || n = 0x2028 || n = 0x2029 || n = 0x202f ||
  n = 0x205f || n = 0x3000

/-- Go's `strings.TrimSpace`: all leading and trailing white space removed. -/
def TrimSpace (s : String) : String :=
  String.mk ((s.data.dropWhile isSpace).reverse.dropWhile isSpace).reverse

/-- State of the context an emitter was started with: `emit` keeps sending
points until `cxt.Done()` fires, then closes its socket and returns. -/
inductive Emitter where
  | active
  | cancelled
deriving DecidableEq, Repr

/-- Calling a `context.CancelFunc`: the context is cancelled; a second call
does nothing more. -/
def cancel (_e : Emitter) : Emitter := Emitter.cancelled

/-- The environment of one control connection.

`lines` are the successive results of `rw.ReadString` that come with a nil
error; the read after the last one fails (the peer closed the connection).
The other fields say which socket operations fail; the loop iteration (0 for
the first command) indexes the operations inside the loop: `resolveErr` is
`net.ResolveUDPAddr`, `dialErr` is `net.DialUDP`, `writeErr` is the reply
(`c.Write`, or `fmt.Fprintf` for an unknown command) and `flushErr` is
`rw.Flush`, whose error the code drops.  A failed write adds no byte to the
connection. -/
structure Net where
  lines : List String
  helloErr : Bool
  resolveErr : Nat → Bool
  dialErr : Nat → Bool
  writeErr : Nat → Bool
  flushErr : Nat → Bool

/-- A connection on which every socket operation succeeds until the peer has
sent `lines` and closed. -/
def Net.ok (lines : List String) : Net :=
  { lines := lines, helloErr := false, resolveErr := fun _ => false,
    dialErr := fun _ => false, writeErr := fun _ => false,
    flushErr := fun _ => false }

/-- What lives across the iterations of the loop in `serve`: the bytes written
to the control connection so far and the slice `cancels`, one entry per
emitter spawned, holding the state of that emitter's context. -/
structure Session where
  out : String
  cancels : List Emitter
deriving DecidableEq, Repr

/-- How `serve` stops: `returned` is a `return` (the goroutine of this
session ends, the process goes on), `fatal` is `log.Fatal`, which logs and
calls `os.Exit(1)`: the whole server process ends. -/
inductive Outcome where
  | returned
  | fatal
deriving DecidableEq, Repr

/-- Result of one loop iteration. -/
inductive Step where
  | next (s : Session)
  | halt (s : Session) (closed : Bool) (o : Outcome)
deriving DecidableEq, Repr

/-- Result of `serve`: the final session state, whether `c.Close()` was
called, how the function stopped and the lines it never read. -/
structure Result where
  session : Session
  closed : Bool
  outcome : Outcome
  unread : List String
deriving DecidableEq, Repr

/-- The `switch strings.TrimSpace(cmd)` of `serve`, for the command read in
iteration `i`. -/
def dispatch (net : Net) (i : Nat) (s : Session) (cmd : String) : Step :=
  let t := TrimSpace cmd
  if t = "start" then
    if net.resolveErr i then Step.halt s false Outcome.fatal
    else if net.dialErr i then Step.halt s false Outcome.returned
    else
      let s1 : Session := { s with cancels := s.cancels ++ [Emitter.active] }
      if net.writeErr i then Step.halt s1 false Outcome.returned
      else Step.next { s1 with out := s1.out ++ "OK\n" }
  else if t = "stop" then
    let s1 : Session := { s with cancels := s.cancels.map cancel }
    if net.writeErr i then Step.halt s1 false Outcome.returned
    else Step.next { s1 with out := s1.out ++ "OK\n" }
  else if t = "bye" then
    if net.writeErr i then Step.halt s false Outcome.returned
    else Step.halt { s with out := s.out ++ "OK\n" } true Outcome.returned
  else
    if net.writeErr i then Step.halt s false Outcome.returned
    else if net.flushErr i then Step.next s
    else Step.next { s with out := s.out ++ ("Unknown command: " ++ cmd ++ ".\n") }

/-- The `for` loop of `serve`, from iteration `i` on, with `lines` still to
be read: a failed `rw.ReadString` is `log.Fatal(err)`. -/
def serveLoop (net : Net) : Nat → List String → Session → Result
  | _, [], s => { session := s, closed := false, outcome := Outcome.fatal, unread := [] }
  | i, cmd :: rest, s =>
    match dispatch net i s cmd with
    | Step.next s1 => serveLoop net (i + 1) rest s1
    | Step.halt s1 closed o =>
      { session := s1, closed := closed, outcome := o, unread := rest }

/-- The function `serve`: greet with `HELLO\n`, then run the command loop. -/
def serve (net : Net) : Result :=
  if net.helloErr then
    { session := { out := "", cancels := [] }, closed := false,
      outcome := Outcome.returned, unread := net.lines }
  else
    serveLoop net 0 net.lines { out := "HELLO\n", cancels := [] }

/-- Number of emitters of a session that are still running. -/
def activeCount (cancels : List Emitter) : Nat :=
  (cancels.filter (fun e => e = Emitter.active)).length

end server

namespace client

/-! ## client/client.go -/

/-- The constant `scale`. -/
def scale : Int := 1024

/-- The struct `point`: `X, Y float64`. -/
structure point (α : Type) where
  X : α
  Y : α
deriving DecidableEq, Repr

/-- An `image.Rectangle`: the points with `MinX ≤ x < MaxX`, `MinY ≤ y < MaxY`. -/
structure Rectangle where
  MinX : Int
  MinY : Int
  MaxX : Int
  MaxY : Int
deriving DecidableEq, Repr

/-- Go's `image.Rect(x0, y0, x1, y1)`: the coordinates are swapped where
needed so that the rectangle is well formed. -/
def Rect (x0 y0 x1 y1 : Int) : Rectangle :=
  { MinX := if x0 > x1 then x1 else x0,
    MinY := if y0 > y1 then y1 else y0,
    MaxX := if x0 > x1 then x0 else x1,
    MaxY := if y0 > y1 then y0 else y1 }

/-- Go's `image.Point.In`: the pixel lies inside the rectangle. -/
def Rectangle.contains (r : Rectangle) (x y : Int) : Prop :=
  r.MinX ≤ x ∧ x < r.MaxX ∧ r.MinY ≤ y ∧ y < r.MaxY

/-- The struct `circle`; of the image only its bounds are kept. -/
structure circle where
  Image : Rectangle
  Scale : Int
  Border : Int
deriving DecidableEq, Repr

/-- The function `newCircle`: `Scale: scale, Border: scale / 16` and an image
on `image.Rect(0, 0, c.Scale+c.Border*2, c.Scale+c.Border*2)`. -/
def newCircle : circle :=
  let c : circle := { Image := Rect 0 0 0 0, Scale := scale, Border := scale.tdiv 16 }
  { c with Image := Rect 0 0 (c.Scale + c.Border * 2) (c.Scale + c.Border * 2) }

/-- Go's conversion `int(f)` of a floating-point number: the fraction is
discarded (truncation towards zero). -/
def toInt {α : Type} [LinearOrderedField α] [FloorRing α] (x : α) : Int :=
  if 0 ≤ x then ⌊x⌋ else ⌈x⌉

/-- Rounding of a number to the nearest integer, ties going to the even one. -/
def roundHalfEven {α : Type} [LinearOrderedField α] [FloorRing α] (q : α) : Int :=
  let f := ⌊q⌋
  if q - f < 1 / 2 then f
  else if 1 / 2 < q - f then f + 1
  else if f % 2 = 0 then f else f + 1

/-- The binary exponent a float64 uses for `x`: the `e` with
`2^e ≤ |x| < 2^(e+1)`, and `-1022` in the subnormal range (and for zero). -/
def expo {α : Type} [LinearOrderedField α] [FloorRing α] (x : α) : Int :=
  max (Int.log 2 |x|) (-1022)

/-- The spacing of the float64 numbers around `x`: 53 significant bits. -/
def ulp {α : Type} [LinearOrderedField α] [FloorRing α] (x : α) : α :=
  (2 : α) ^ (expo x - 52)

/-- The float64 result of an operation whose exact result is `x`: the nearest
float64, ties to even (IEEE 754 binary64, the rounding of every `float64`
operation of Go).  Overflow to an infinity (`|x| ≥ 2^1024`) is left out. -/
def round64 {α : Type} [LinearOrderedField α] [FloorRing α] (x : α) : α :=
  (roundHalfEven (x / ulp x) : α) * ulp x

/-- The closure `trans` of `circle.line`:
`int((v+1.0)*float64(c.Scale)/2.0) + c.Border`, each float64 operation (the
sum, the conversion of `c.Scale`, the product, the quotient) rounded. -/
def trans {α : Type} [LinearOrderedField α] [FloorRing α] (c : circle) (v : α) : Int :=
  toInt (round64 (round64 (round64 (v + 1) * round64 (c.Scale : α)) / 2)) + c.Border

/-- The arguments `x1, y1, x2, y2` that `circle.line` passes to
`bresenham.DrawLine`. -/
def line {α : Type} [LinearOrderedField α] [FloorRing α] (c : circle) (p1 p2 : point α) :
    (Int × Int) × (Int × Int) :=
  ((trans c p1.X, trans c p1.Y), (trans c p2.X, trans c p2.Y))

/-- Which branch of the `select` in `sketch` fires: the channel delivers a
point, the channel is closed (`ok` is false), or the context is done. -/
inductive Recv (α : Type) where
  | recv (p : point α)
  | closed
  | done

/-- The loop of `sketch`, with the slot `last`: the result lists the calls
`circle.line(*last, p)` in the order they are made. -/
def sketchLoop {α : Type} : Option (point α) → List (Recv α) → List (point α × point α)
  | _, [] => []
  | last, Recv.recv p :: rest =>
    match last with
    | some l => (l, p) :: sketchLoop (some p) rest
    | none => sketchLoop (some p) rest
  | _, Recv.closed :: _ => []
  | _, Recv.done :: _ => []

/-- The function `sketch`: the slot starts as `nil`. -/
def sketch {α : Type} (events : List (Recv α)) : List (point α × point α) :=
  sketchLoop none events

end client

/-! ## Vocabulary of the statements -/

namespace server

/-- The commands up to and including the first one that trims to `bye`. -/
def uptoBye : List String → List String
  | [] => []
  | l :: rest => if TrimSpace l = "bye" then [l] else l :: uptoBye rest

/-- The reply `OK\n`, `n` times. -/
def okReplies : Nat → String
  | 0 => ""
  | n + 1 => "OK\n" ++ okReplies n

/-- The emitters of a session after the commands `cmds`, one per `start` in
the order they were spawned: the emitter of a `start` is cancelled when a
`stop` follows that `start`, and active otherwise. -/
def emittersAfter : List String → List Emitter
  | [] => []
  | l :: rest =>
    if TrimSpace l = "start" then
      (if rest.any (fun m => TrimSpace m = "stop") then Emitter.cancelled
        else Emitter.active) :: emittersAfter rest
    else emittersAfter rest

/-- Number of `start` commands that follow the last `stop` of a sequence. -/
def startsSinceStop (cmds : List String) : Nat :=
  cmds.foldl
    (fun n l => if TrimSpace l = "start" then n + 1 else if TrimSpace l = "stop" then 0 else n)
    0

end server

namespace client

/-- The real `x` is a float64: an integer of fewer than 54 bits times a power
of two not below the smallest float64 exponent. -/
def Representable (x : ℝ) : Prop :=
  ∃ n E : Int, |n| < 2 ^ 53 ∧ -1022 ≤ E ∧ x = (n : ℝ) * (2 : ℝ) ^ (E - 52)

end client

/-! ## The point generator -/

/-- Over the reals `d.Seconds()` is the duration in nanoseconds divided by `10^9`. -/
theorem Seconds_real (d : Int) : (server.Seconds d : ℝ) = (d : ℝ) / 1000000000 := by
  unfold server.Seconds server.Second
  have h := Int.tdiv_add_tmod d 1000000000
  have h2 : ((d : Int) : ℝ)
      = ((1000000000 * d.tdiv 1000000000 + d.tmod 1000000000 : Int) : ℝ) := by rw [h]
  rw [h2]
  push_cast
  ring

/-- The angle used by `position`, over the reals. -/
theorem position_real (d : Int) :
    server.position Real.cos Real.sin Real.pi d
      = { X := Real.cos ((d : ℝ) / 1000000000 * 2 * Real.pi),
          Y := Real.sin ((d : ℝ) / 1000000000 * 2 * Real.pi) } := by
  simp [server.position, server.RPS, Seconds_real]

/-- C3: at the landmark durations 0, `time.Second/4` and `time.Second` the
generator returns (1, 0), (0, 1) and (1, 0) over exact real arithmetic, so each
coordinate passes the `InDelta` check of the three tests with `floatDelta`. -/
theorem position_landmarks :
    server.position Real.cos Real.sin Real.pi 0 = { X := 1, Y := 0 } ∧
    server.position Real.cos Real.sin Real.pi (server.Second.tdiv 4) = { X := 0, Y := 1 } ∧
    server.position Real.cos Real.sin Real.pi server.Second = { X := 1, Y := 0 } ∧
    server.InDelta 1 (server.position Real.cos Real.sin Real.pi 0).X server.floatDelta ∧
    server.InDelta 0 (server.position Real.cos Real.sin Real.pi 0).Y server.floatDelta ∧
    server.InDelta 0
      (server.position Real.cos Real.sin Real.pi (server.Second.tdiv 4)).X server.floatDelta ∧
    server.InDelta 1
      (server.position Real.cos Real.sin Real.pi (server.Second.tdiv 4)).Y server.floatDelta ∧
    server.InDelta 1 (server.position Real.cos Real.sin Real.pi server.Second).X
      server.floatDelta ∧
    server.InDelta 0 (server.position Real.cos Real.sin Real.pi server.Second).Y
      server.floatDelta := by
  have hq : server.Second.tdiv 4 = 250000000 := by decide
  have h0 : server.position Real.cos Real.sin Real.pi 0 = { X := 1, Y := 0 } := by
    rw [position_real]; simp
  have h1 : server.position Real.cos Real.sin Real.pi (server.Second.tdiv 4)
      = { X := 0, Y := 1 } := by
    rw [hq, position_real]
    have ha : ((250000000 : Int) : ℝ) / 1000000000 * 2 * Real.pi = Real.pi / 2 := by
      push_cast; ring
    rw [ha]; simp
  have h2 : server.position Real.cos Real.sin Real.pi server.Second = { X := 1, Y := 0 } := by
    rw [position_real]
    have ha : ((server.Second : Int) : ℝ) / 1000000000 * 2 * Real.pi = 2 * Real.pi := by
      unfold server.Second; push_cast; ring
    rw [ha]; simp
  refine ⟨h0, h1, h2, ?_, ?_, ?_, ?_, ?_, ?_⟩ <;>
    simp only [h0, h1, h2, server.InDelta, server.floatDelta] <;> norm_num

/-- Every point of the generator is on the unit circle, hence in the unit square. -/
theorem position_unit (d : Int) :
    (server.position Real.cos Real.sin Real.pi d).X ^ 2
      + (server.position Real.cos Real.sin Real.pi d).Y ^ 2 = 1 ∧
    -1 ≤ (server.position Real.cos Real.sin Real.pi d).X ∧
    (server.position Real.cos Real.sin Real.pi d).X ≤ 1 ∧
    -1 ≤ (server.position Real.cos Real.sin Real.pi d).Y ∧
    (server.position Real.cos Real.sin Real.pi d).Y ≤ 1 := by
  rw [position_real]
  exact ⟨Real.cos_sq_add_sin_sq _, Real.neg_one_le_cos _, Real.cos_le_one _,
    Real.neg_one_le_sin _, Real.sin_le_one _⟩

/-- C4: every point returned by `position` lies on the unit circle, over exact
real arithmetic, and both its coordinates lie in [-1, 1]. -/
theorem position_on_unit_circle (d : Int) :
    (server.position Real.cos Real.sin Real.pi d).X ^ 2
      + (server.position Real.cos Real.sin Real.pi d).Y ^ 2 = 1 ∧
    -1 ≤ (server.position Real.cos Real.sin Real.pi d).X ∧
    (server.position Real.cos Real.sin Real.pi d).X ≤ 1 ∧
    -1 ≤ (server.position Real.cos Real.sin Real.pi d).Y ∧
    (server.position Real.cos Real.sin Real.pi d).Y ≤ 1 :=
  position_unit d

/-! ## The rasteriser -/

/-- The canvas built by `newCircle`. -/
theorem newCircle_eq :
    client.newCircle
      = { Image := { MinX := 0, MinY := 0, MaxX := 1152, MaxY := 1152 },
          Scale := 1024, Border := 64 } := by
  decide

/-- An integer rounds to itself. -/
theorem rhe_int (n : Int) : client.roundHalfEven ((n : ℝ)) = n := by
  simp [client.roundHalfEven]

/-- Rounding to the nearest integer is monotone. -/
theorem rhe_mono {p q : ℝ} (h : p ≤ q) : client.roundHalfEven p ≤ client.roundHalfEven q := by
  have hf : ⌊p⌋ ≤ ⌊q⌋ := Int.floor_mono h
  unfold client.roundHalfEven
  simp only []
  rcases lt_or_eq_of_le hf with hlt | heq
  · split_ifs <;> omega
  · have heq2 : (⌊p⌋ : ℝ) = (⌊q⌋ : ℝ) := by rw [heq]
    split_ifs <;> first | omega | (exfalso; linarith)

/-- The exponent is never below that of the subnormal range. -/
theorem expo_ge (x : ℝ) : -1022 ≤ client.expo x := le_max_right _ _

/-- A number lies below the next power of two of its exponent. -/
theorem abs_lt_expo (x : ℝ) : |x| < (2 : ℝ) ^ (client.expo x + 1) := by
  have h1 : |x| < ((2 : ℕ) : ℝ) ^ (Int.log 2 |x| + 1) := Int.lt_zpow_succ_log_self (by norm_num) _
  have h2 : ((2 : ℕ) : ℝ) ^ (Int.log 2 |x| + 1) ≤ (2 : ℝ) ^ (client.expo x + 1) := by
    push_cast
    apply zpow_le_zpow_right₀ (by norm_num)
    have : Int.log 2 |x| ≤ client.expo x := le_max_left _ _
    omega
  exact lt_of_lt_of_le h1 h2

/-- Above the subnormal range a number is at least the power of two of its exponent. -/
theorem expo_le_abs (x : ℝ) (hx : x ≠ 0) (h : -1022 < client.expo x) :
    (2 : ℝ) ^ client.expo x ≤ |x| := by
  have he : client.expo x = Int.log 2 |x| := by
    unfold client.expo at h ⊢
    rcases max_cases (Int.log 2 |x|) (-1022) with ⟨h1, _⟩ | ⟨h1, _⟩
    · exact h1
    · rw [h1] at h; omega
  rw [he]
  have := Int.zpow_log_le_self (R := ℝ) (b := 2) (r := |x|) (by norm_num) (abs_pos.mpr hx)
  simpa using this

/-- The spacing is positive. -/
theorem ulp_pos (x : ℝ) : 0 < client.ulp x := by
  unfold client.ulp; positivity

/-- A nonzero number below `2^(E+1)` has exponent at most `E`. -/
theorem expo_le_of_lt (x : ℝ) (hx : x ≠ 0) (E : Int) (hE : -1022 ≤ E)
    (h : |x| < (2 : ℝ) ^ (E + 1)) : client.expo x ≤ E := by
  have h2 : |x| < ((2 : ℕ) : ℝ) ^ (E + 1) := by simpa using h
  have h1 := (Int.lt_zpow_iff_log_lt (R := ℝ) (b := 2) (by norm_num) (abs_pos.mpr hx)).mp h2
  unfold client.expo
  exact max_le (by omega) hE

/-- The exponent of a number between `2^e` and `2^(e+1)`. -/
theorem expo_eq (x : ℝ) (e : Int) (he : -1022 ≤ e) (h1 : (2 : ℝ) ^ e ≤ |x|)
    (h2 : |x| < (2 : ℝ) ^ (e + 1)) : client.expo x = e := by
  have hpos : 0 < |x| := lt_of_lt_of_le (by positivity) h1
  have hx : x ≠ 0 := abs_pos.mp hpos
  have hle := expo_le_of_lt x hx e he h2
  have h3 : ((2 : ℕ) : ℝ) ^ e ≤ |x| := by simpa using h1
  have h4 := (Int.zpow_le_iff_le_log (R := ℝ) (b := 2) (by norm_num) hpos).mp h3
  have h5 : Int.log 2 |x| ≤ client.expo x := le_max_left _ _
  omega

/-- Zero is a float64. -/
theorem round64_zero : client.round64 (0 : ℝ) = 0 := by
  simp [client.round64, client.roundHalfEven]

/-- A 53-bit integer times a power of two is not changed by rounding. -/
theorem round64_of_int_mul (n E : Int) (hn : |n| < 2 ^ 53) (hE : -1022 ≤ E) :
    client.round64 ((n : ℝ) * (2 : ℝ) ^ (E - 52)) = (n : ℝ) * (2 : ℝ) ^ (E - 52) := by
  by_cases hn0 : n = 0
  · simp [hn0, round64_zero]
  · set x : ℝ := (n : ℝ) * (2 : ℝ) ^ (E - 52) with hxdef
    have hp : (0 : ℝ) < (2 : ℝ) ^ (E - 52) := by positivity
    have hx : x ≠ 0 := mul_ne_zero (Int.cast_ne_zero.mpr hn0) (ne_of_gt hp)
    have habs : |x| < (2 : ℝ) ^ (E + 1) := by
      rw [hxdef, abs_mul, abs_of_pos hp]
      have h1 : |(n : ℝ)| < (2 : ℝ) ^ (53 : ℕ) := by exact_mod_cast hn
      have h2 : (2 : ℝ) ^ (E + 1) = (2 : ℝ) ^ (53 : ℕ) * (2 : ℝ) ^ (E - 52) := by
        rw [← zpow_natCast, ← zpow_add₀ (by norm_num : (2 : ℝ) ≠ 0)]
        congr 1
        push_cast
        ring
      rw [h2]
      exact mul_lt_mul_of_pos_right h1 hp
    have hle := expo_le_of_lt x hx E hE habs
    obtain ⟨k, hk⟩ : ∃ k : ℕ, E = client.expo x + k := ⟨(E - client.expo x).toNat, by omega⟩
    have hq : x / client.ulp x = ((n * 2 ^ k : Int) : ℝ) := by
      have hu := ulp_pos x
      rw [div_eq_iff (ne_of_gt hu)]
      unfold client.ulp
      conv_lhs => rw [hxdef]
      push_cast
      rw [mul_assoc, ← zpow_natCast, ← zpow_add₀ (by norm_num : (2 : ℝ) ≠ 0)]
      congr 2
      omega
    unfold client.round64
    rw [hq, rhe_int]
    rw [← hq, div_mul_cancel₀ _ (ne_of_gt (ulp_pos x))]

/-- Rounding leaves a float64 as it is. -/
theorem round64_representable (y : ℝ) (hy : client.Representable y) : client.round64 y = y := by
  obtain ⟨n, E, hn, hE, rfl⟩ := hy
  exact round64_of_int_mul n E hn hE

/-- A float64 times a power of two is a float64. -/
theorem representable_mul_two_pow (y : ℝ) (hy : client.Representable y) (k : ℕ) :
    client.Representable (y * (2 : ℝ) ^ k) := by
  obtain ⟨n, E, hn, hE, rfl⟩ := hy
  refine ⟨n, E + k, hn, by omega, ?_⟩
  rw [mul_assoc, ← zpow_natCast, ← zpow_add₀ (by norm_num : (2 : ℝ) ≠ 0)]
  congr 2
  omega

/-- Rounding to the nearest integer keeps a number within integer bounds. -/
theorem rhe_abs_le (q : ℝ) (N : Int) (h : |q| ≤ (N : ℝ)) :
    |client.roundHalfEven q| ≤ N := by
  obtain ⟨h1, h2⟩ := abs_le.mp h
  have a := rhe_mono h2
  have b := rhe_mono h1
  rw [rhe_int] at a
  rw [show (-(N : ℝ)) = ((-N : Int) : ℝ) by push_cast; rfl, rhe_int] at b
  exact abs_le.mpr ⟨b, a⟩

/-- The result of rounding is a float64. -/
theorem round64_is_representable (x : ℝ) : client.Representable (client.round64 x) := by
  have hu := ulp_pos x
  have hq : |x / client.ulp x| ≤ (((2 : Int) ^ 53 : Int) : ℝ) := by
    rw [abs_div, abs_of_pos hu, div_le_iff₀ hu]
    have h1 := abs_lt_expo x
    have hc : (((2 : Int) ^ 53 : Int) : ℝ) = (2 : ℝ) ^ (53 : ℕ) := by norm_num
    have h2 : (2 : ℝ) ^ (client.expo x + 1) = (2 : ℝ) ^ (53 : ℕ) * client.ulp x := by
      unfold client.ulp
      rw [← zpow_natCast, ← zpow_add₀ (by norm_num : (2 : ℝ) ≠ 0)]
      congr 1
      push_cast
      ring
    rw [hc, ← h2]
    exact le_of_lt h1
  have hm := rhe_abs_le _ _ hq
  unfold client.round64
  set m := client.roundHalfEven (x / client.ulp x) with hmdef
  by_cases hlt : |m| < 2 ^ 53
  · exact ⟨m, client.expo x, hlt, expo_ge x, rfl⟩
  · have hE := expo_ge x
    have hdbl : (2 : ℝ) ^ (client.expo x + 1 - 52) = 2 * client.ulp x := by
      unfold client.ulp
      rw [show client.expo x + 1 - 52 = 1 + (client.expo x - 52) by ring,
        zpow_add₀ (by norm_num : (2 : ℝ) ≠ 0)]
      norm_num
    rcases abs_cases m with ⟨h1, _⟩ | ⟨h1, _⟩
    · have hm2 : m = 2 ^ 53 := by omega
      refine ⟨2 ^ 52, client.expo x + 1, by norm_num, by omega, ?_⟩
      rw [hdbl, hm2]
      push_cast
      ring
    · have hm2 : m = -2 ^ 53 := by omega
      refine ⟨-2 ^ 52, client.expo x + 1, by norm_num, by omega, ?_⟩
      rw [hdbl, hm2]
      push_cast
      ring

/-- On a non-negative argument the conversion `int(f)` is the floor. -/
theorem toInt_of_nonneg (x : ℝ) (hx : 0 ≤ x) : client.toInt x = ⌊x⌋ := by
  simp [client.toInt, hx]

/-- A number holds at most `2^53` spacings. -/
theorem abs_div_ulp_le (x : ℝ) : |x / client.ulp x| ≤ (((2 : Int) ^ 53 : Int) : ℝ) := by
  have hu := ulp_pos x
  rw [abs_div, abs_of_pos hu, div_le_iff₀ hu]
  have h1 := abs_lt_expo x
  have hc : (((2 : Int) ^ 53 : Int) : ℝ) = (2 : ℝ) ^ (53 : ℕ) := by norm_num
  have h2 : (2 : ℝ) ^ (client.expo x + 1) = (2 : ℝ) ^ (53 : ℕ) * client.ulp x := by
    unfold client.ulp
    rw [← zpow_natCast, ← zpow_add₀ (by norm_num : (2 : ℝ) ≠ 0)]
    congr 1
    push_cast
    ring
  rw [hc, ← h2]
  exact le_of_lt h1

/-- Rounding keeps the sign of a non-negative number. -/
theorem round64_nonneg (x : ℝ) (hx : 0 ≤ x) : 0 ≤ client.round64 x := by
  have hu := ulp_pos x
  have h := rhe_mono (div_nonneg hx (le_of_lt hu))
  rw [show (0 : ℝ) = ((0 : Int) : ℝ) by simp, rhe_int] at h
  unfold client.round64
  exact mul_nonneg (by exact_mod_cast h) (le_of_lt hu)

/-- Rounding does not go above the next power of two. -/
theorem round64_le_pow (x : ℝ) : client.round64 x ≤ (2 : ℝ) ^ (client.expo x + 1) := by
  have hu := ulp_pos x
  have h := rhe_abs_le _ _ (abs_div_ulp_le x)
  have h1 : client.roundHalfEven (x / client.ulp x) ≤ 2 ^ 53 := (abs_le.mp h).2
  have h2 : (client.roundHalfEven (x / client.ulp x) : ℝ) ≤ (2 : ℝ) ^ (53 : ℕ) := by
    exact_mod_cast h1
  have h3 : (2 : ℝ) ^ (client.expo x + 1) = (2 : ℝ) ^ (53 : ℕ) * client.ulp x := by
    unfold client.ulp
    rw [← zpow_natCast, ← zpow_add₀ (by norm_num : (2 : ℝ) ≠ 0)]
    congr 1
    push_cast
    ring
  unfold client.round64
  rw [h3]
  exact mul_le_mul_of_nonneg_right h2 (le_of_lt hu)

/-- Rounding does not go below the power of two of the exponent. -/
theorem pow_le_round64 (x : ℝ) (hx : 0 < x) (h : -1022 < client.expo x) :
    (2 : ℝ) ^ client.expo x ≤ client.round64 x := by
  have hu := ulp_pos x
  have hlo := expo_le_abs x (ne_of_gt hx) h
  rw [abs_of_pos hx] at hlo
  have h3 : (2 : ℝ) ^ client.expo x = (2 : ℝ) ^ (52 : ℕ) * client.ulp x := by
    unfold client.ulp
    rw [← zpow_natCast, ← zpow_add₀ (by norm_num : (2 : ℝ) ≠ 0)]
    congr 1
    push_cast
    ring
  have hq : (((2 : Int) ^ 52 : Int) : ℝ) ≤ x / client.ulp x := by
    rw [le_div_iff₀ hu]
    have hc : (((2 : Int) ^ 52 : Int) : ℝ) = (2 : ℝ) ^ (52 : ℕ) := by norm_num
    rw [hc, ← h3]
    exact hlo
  have hm := rhe_mono hq
  rw [rhe_int] at hm
  have h2 : (2 : ℝ) ^ (52 : ℕ) ≤ (client.roundHalfEven (x / client.ulp x) : ℝ) := by
    exact_mod_cast hm
  unfold client.round64
  rw [h3]
  exact mul_le_mul_of_nonneg_right h2 (le_of_lt hu)

/-- Rounding is monotone on the non-negative numbers. -/
theorem round64_mono_nonneg (x y : ℝ) (hx : 0 ≤ x) (hxy : x ≤ y) :
    client.round64 x ≤ client.round64 y := by
  rcases eq_or_lt_of_le hx with h0 | hpos
  · rw [← h0, round64_zero]
    exact round64_nonneg y (le_trans hx hxy)
  · have hy : 0 < y := lt_of_lt_of_le hpos hxy
    have hlog : Int.log 2 |x| ≤ Int.log 2 |y| := by
      apply Int.log_mono_right (abs_pos.mpr (ne_of_gt hpos))
      rw [abs_of_pos hpos, abs_of_pos hy]
      exact hxy
    have he : client.expo x ≤ client.expo y := max_le_max hlog (le_refl _)
    rcases eq_or_lt_of_le he with heq | hlt
    · have hu : client.ulp x = client.ulp y := by unfold client.ulp; rw [heq]
      unfold client.round64
      rw [hu]
      have hm := rhe_mono (div_le_div_of_nonneg_right hxy (le_of_lt (ulp_pos y)))
      exact mul_le_mul_of_nonneg_right (by exact_mod_cast hm) (le_of_lt (ulp_pos y))
    · have h1 := round64_le_pow x
      have h2 := pow_le_round64 y hy (lt_of_le_of_lt (expo_ge x) hlt)
      have h3 : (2 : ℝ) ^ (client.expo x + 1) ≤ (2 : ℝ) ^ client.expo y :=
        zpow_le_zpow_right₀ (by norm_num) (by omega)
      exact le_trans h1 (le_trans h3 h2)

/-- An integer of fewer than 54 bits is a float64. -/
theorem representable_int (n : Int) (hn : |n| < 2 ^ 53) : client.Representable (n : ℝ) :=
  ⟨n, 52, hn, by norm_num, by simp⟩

/-- The transform on the canvas of `newCircle`, for `v ≥ -1`: the only operation that
rounds is the sum `v + 1.0`. -/
theorem trans_newCircle (v : ℝ) (hv : -1 ≤ v) :
    client.trans client.newCircle v = ⌊client.round64 (v + 1) * 1024 / 2⌋ + 64 := by
  have hr := round64_is_representable (v + 1)
  have hr0 : 0 ≤ client.round64 (v + 1) := round64_nonneg _ (by linarith)
  have hS : client.round64 ((1024 : Int) : ℝ) = 1024 := by
    rw [round64_representable _ (representable_int 1024 (by norm_num))]
    norm_num
  have h1 : client.round64 (client.round64 (v + 1) * 1024)
      = client.round64 (v + 1) * 1024 := by
    have := round64_representable _ (representable_mul_two_pow _ hr 10)
    norm_num at this
    exact this
  have h2 : client.round64 (client.round64 (v + 1) * 1024 / 2)
      = client.round64 (v + 1) * 1024 / 2 := by
    have := round64_representable _ (representable_mul_two_pow _ hr 9)
    have e : client.round64 (v + 1) * 1024 / 2 = client.round64 (v + 1) * 2 ^ 9 := by ring
    rw [e]
    exact this
  rw [newCircle_eq]
  simp only [client.trans]
  rw [hS, h1, h2, toInt_of_nonneg _ (by linarith)]

/-- Rounding of a tie between two integers. -/
theorem rhe_tie (f : Int) :
    client.roundHalfEven ((f : ℝ) + 1 / 2) = if f % 2 = 0 then f else f + 1 := by
  have hf : ⌊(f : ℝ) + 1 / 2⌋ = f := by
    rw [Int.floor_eq_iff]; constructor <;> norm_num
  unfold client.roundHalfEven
  simp only [hf]
  norm_num

/-- Rounding of a number past the middle of two integers. -/
theorem rhe_above (f : Int) (d : ℝ) (h1 : 1 / 2 < d) (h2 : d < 1) :
    client.roundHalfEven ((f : ℝ) + d) = f + 1 := by
  have hf : ⌊(f : ℝ) + d⌋ = f := by
    rw [Int.floor_eq_iff]; constructor <;> linarith
  unfold client.roundHalfEven
  simp only [hf, add_sub_cancel_left]
  rw [if_neg (by linarith), if_pos h1]

/-- Rounding of a number whose exponent is known. -/
theorem round64_eval (x : ℝ) (e n : Int) (he : -1022 ≤ e) (h1 : (2 : ℝ) ^ e ≤ |x|)
    (h2 : |x| < (2 : ℝ) ^ (e + 1))
    (hn : client.roundHalfEven (x / (2 : ℝ) ^ (e - 52)) = n) :
    client.round64 x = (n : ℝ) * (2 : ℝ) ^ (e - 52) := by
  unfold client.round64 client.ulp
  rw [expo_eq x e he h1 h2, hn]

/-- The float64 sum `(1 - 2^-53) + 1.0` is a tie between two doubles and rounds to 2. -/
theorem round64_tie_two : client.round64 ((1 - 1 / 2 ^ 53 : ℝ) + 1) = 2 := by
  have hx : ((1 - 1 / 2 ^ 53 : ℝ) + 1) / (2 : ℝ) ^ ((0 : Int) - 52)
      = ((2 ^ 53 - 1 : Int) : ℝ) + 1 / 2 := by
    norm_num
  have hn : client.roundHalfEven (((1 - 1 / 2 ^ 53 : ℝ) + 1) / (2 : ℝ) ^ ((0 : Int) - 52))
      = 2 ^ 53 := by
    rw [hx, rhe_tie]
    norm_num
  rw [round64_eval _ 0 (2 ^ 53) (by norm_num) (by rw [abs_of_pos] <;> norm_num)
    (by rw [abs_of_pos] <;> norm_num) hn]
  norm_num

/-- The float64 sum `-2^-55 + 1.0` rounds to 1. -/
theorem round64_near_one : client.round64 ((-(1 / 2 ^ 55) : ℝ) + 1) = 1 := by
  have hx : ((-(1 / 2 ^ 55) : ℝ) + 1) / (2 : ℝ) ^ ((-1 : Int) - 52)
      = ((2 ^ 53 - 1 : Int) : ℝ) + 3 / 4 := by
    norm_num
  have hn : client.roundHalfEven (((-(1 / 2 ^ 55) : ℝ) + 1) / (2 : ℝ) ^ ((-1 : Int) - 52))
      = 2 ^ 53 := by
    rw [hx, rhe_above _ _ (by norm_num) (by norm_num)]
    norm_num
  rw [round64_eval _ (-1) (2 ^ 53) (by norm_num) (by rw [abs_of_pos] <;> norm_num)
    (by rw [abs_of_pos] <;> norm_num) hn]
  norm_num

/-- C5, as stated, fails on float64: at v = 1 - 2^-53 the sum `v + 1.0` rounds
to 2, so `trans` returns 1088 where floor((v + 1) * S / 2) + B is 1087; at
v = -2^-55 the sum rounds to 1, so `trans` returns 576 where the formula gives
575.  Both inputs are float64 values inside [-1, 1]. -/
theorem trans_not_floor :
    ((-1 : ℝ) ≤ 1 - 1 / 2 ^ 53 ∧ (1 - 1 / 2 ^ 53 : ℝ) ≤ 1 ∧
      client.trans client.newCircle (1 - 1 / 2 ^ 53 : ℝ) = 1088 ∧
      ⌊((1 - 1 / 2 ^ 53 : ℝ) + 1) * (client.newCircle.Scale : ℝ) / 2⌋
        + client.newCircle.Border = 1087) ∧
    ((-1 : ℝ) ≤ -(1 / 2 ^ 55) ∧ (-(1 / 2 ^ 55) : ℝ) ≤ 1 ∧
      client.trans client.newCircle (-(1 / 2 ^ 55) : ℝ) = 576 ∧
      ⌊((-(1 / 2 ^ 55) : ℝ) + 1) * (client.newCircle.Scale : ℝ) / 2⌋
        + client.newCircle.Border = 575) ∧
    ¬ (∀ v : ℝ, -1 ≤ v → v ≤ 1 →
      client.trans client.newCircle v
        = ⌊(v + 1) * (client.newCircle.Scale : ℝ) / 2⌋ + client.newCircle.Border) := by
  have hS : (client.newCircle.Scale : ℝ) = 1024 := by rw [newCircle_eq]; norm_num
  have hB : client.newCircle.Border = 64 := by rw [newCircle_eq]
  have a1 : client.trans client.newCircle (1 - 1 / 2 ^ 53 : ℝ) = 1088 := by
    rw [trans_newCircle _ (by norm_num), round64_tie_two]
    norm_num
  have a2 : ⌊((1 - 1 / 2 ^ 53 : ℝ) + 1) * (client.newCircle.Scale : ℝ) / 2⌋
      + client.newCircle.Border = 1087 := by
    have : ⌊((1 - 1 / 2 ^ 53 : ℝ) + 1) * 1024 / 2⌋ = 1023 := by
      rw [Int.floor_eq_iff]; constructor <;> norm_num
    rw [hS, hB, this]
    norm_num
  have b1 : client.trans client.newCircle (-(1 / 2 ^ 55) : ℝ) = 576 := by
    rw [trans_newCircle _ (by norm_num), round64_near_one]
    norm_num
  have b2 : ⌊((-(1 / 2 ^ 55) : ℝ) + 1) * (client.newCircle.Scale : ℝ) / 2⌋
      + client.newCircle.Border = 575 := by
    have : ⌊((-(1 / 2 ^ 55) : ℝ) + 1) * 1024 / 2⌋ = 511 := by
      rw [Int.floor_eq_iff]; constructor <;> norm_num
    rw [hS, hB, this]
    norm_num
  refine ⟨⟨by norm_num, by norm_num, a1, a2⟩, ⟨by norm_num, by norm_num, b1, b2⟩, ?_⟩
  intro h
  have h3 := h (1 - 1 / 2 ^ 53) (by norm_num) (by norm_num)
  rw [a1, a2] at h3
  exact absurd h3 (by norm_num)

/-- Rounding to the nearest integer moves a number by at most one half. -/
theorem rhe_err (q : ℝ) : |(client.roundHalfEven q : ℝ) - q| ≤ 1 / 2 := by
  have h1 := Int.floor_le q
  have h2 := Int.lt_floor_add_one q
  unfold client.roundHalfEven
  simp only []
  rw [abs_le]
  split_ifs <;> push_cast <;> constructor <;> linarith

/-- Rounding moves a number by at most half a spacing. -/
theorem round64_err (x : ℝ) : |client.round64 x - x| ≤ client.ulp x / 2 := by
  have hu := ulp_pos x
  have h := rhe_err (x / client.ulp x)
  have e : client.round64 x - x
      = ((client.roundHalfEven (x / client.ulp x) : ℝ) - x / client.ulp x) * client.ulp x := by
    unfold client.round64
    field_simp
  rw [e, abs_mul, abs_of_pos hu]
  calc |(client.roundHalfEven (x / client.ulp x) : ℝ) - x / client.ulp x| * client.ulp x
      ≤ 1 / 2 * client.ulp x := mul_le_mul_of_nonneg_right h (le_of_lt hu)
    _ = client.ulp x / 2 := by ring

/-- Rounding moves a number of [0, 2] by at most `2^-53`. -/
theorem round64_err_unit (x : ℝ) (h0 : 0 ≤ x) (h2 : x ≤ 2) :
    |client.round64 x - x| ≤ 1 / 2 ^ 53 := by
  rcases eq_or_lt_of_le h2 with heq | hlt
  · rw [heq]
    have : client.round64 (2 : ℝ) = 2 := by
      have := round64_representable _ (representable_int 2 (by norm_num))
      norm_num at this
      exact this
    rw [this]; norm_num
  · rcases eq_or_lt_of_le h0 with hz | hpos
    · rw [← hz, round64_zero]; norm_num
    · have he : client.expo x ≤ 0 :=
        expo_le_of_lt x (ne_of_gt hpos) 0 (by norm_num) (by rw [abs_of_pos hpos]; norm_num; exact hlt)
      have hu : client.ulp x ≤ (2 : ℝ) ^ (-52 : Int) := by
        unfold client.ulp
        exact zpow_le_zpow_right₀ (by norm_num) (by omega)
      have := round64_err x
      have h52 : (2 : ℝ) ^ (-52 : Int) / 2 = 1 / 2 ^ 53 := by norm_num
      calc |client.round64 x - x| ≤ client.ulp x / 2 := this
        _ ≤ (2 : ℝ) ^ (-52 : Int) / 2 := div_le_div_of_nonneg_right hu (by norm_num)
        _ = 1 / 2 ^ 53 := h52

/-- Numbers at most one apart have floors at most one apart. -/
theorem floor_le_floor_add_one (a b : ℝ) (h : a ≤ b + 1) : ⌊a⌋ ≤ ⌊b⌋ + 1 := by
  have := Int.floor_mono h
  rwa [Int.floor_add_one] at this

/-- Two is a float64. -/
theorem round64_two : client.round64 (2 : ℝ) = 2 := by
  have := round64_representable _ (representable_int 2 (by norm_num))
  norm_num at this
  exact this

/-- One is a float64. -/
theorem round64_one : client.round64 (1 : ℝ) = 1 := by
  have := round64_representable _ (representable_int 1 (by norm_num))
  norm_num at this
  exact this

/-- C5, amended: on the canvas of `newCircle` (Scale 1024, Border 64), for every
v in [-1, 1] the transform equals floor(s * S / 2) + B where s is the float64
sum `v + 1.0`; it equals floor((v + 1) * S / 2) + B whenever that sum is exact,
and is never more than one pixel away from it; trans(-1) = 64, trans(0) = 576
and trans(1) = 1088. -/
theorem trans_eq_floor_rounded :
    client.newCircle.Scale = 1024 ∧ client.newCircle.Border = 64 ∧
    (∀ v : ℝ, -1 ≤ v → v ≤ 1 →
      client.trans client.newCircle v
        = ⌊client.round64 (v + 1) * (client.newCircle.Scale : ℝ) / 2⌋
            + client.newCircle.Border) ∧
    (∀ v : ℝ, -1 ≤ v → v ≤ 1 → client.round64 (v + 1) = v + 1 →
      client.trans client.newCircle v
        = ⌊(v + 1) * (client.newCircle.Scale : ℝ) / 2⌋ + client.newCircle.Border) ∧
    (∀ v : ℝ, -1 ≤ v → v ≤ 1 →
      |client.trans client.newCircle v
        - (⌊(v + 1) * (client.newCircle.Scale : ℝ) / 2⌋ + client.newCircle.Border)| ≤ 1) ∧
    client.trans client.newCircle (-1 : ℝ) = 64 ∧
    client.trans client.newCircle (0 : ℝ) = 576 ∧
    client.trans client.newCircle (1 : ℝ) = 1088 := by
  have hS : (client.newCircle.Scale : ℝ) = 1024 := by rw [newCircle_eq]; norm_num
  have hB : client.newCircle.Border = 64 := by rw [newCircle_eq]
  have key : ∀ v : ℝ, -1 ≤ v →
      client.trans client.newCircle v
        = ⌊client.round64 (v + 1) * (client.newCircle.Scale : ℝ) / 2⌋
            + client.newCircle.Border := by
    intro v hv
    rw [trans_newCircle v hv, hS, hB]
  refine ⟨by rw [newCircle_eq], hB, fun v h1 _ => key v h1, ?_, ?_, ?_, ?_, ?_⟩
  · intro v h1 _ hex
    rw [key v h1, hex]
  · intro v h1 h2
    rw [key v h1, hS]
    have herr := abs_le.mp (round64_err_unit (v + 1) (by linarith) (by linarith))
    have hsmall : (1 : ℝ) / 2 ^ 53 * 512 ≤ 1 := by norm_num
    have ha := floor_le_floor_add_one (client.round64 (v + 1) * 1024 / 2)
      ((v + 1) * 1024 / 2) (by linarith [herr.1, herr.2])
    have hb := floor_le_floor_add_one ((v + 1) * 1024 / 2)
      (client.round64 (v + 1) * 1024 / 2) (by linarith [herr.1, herr.2])
    rw [abs_le]
    constructor <;> omega
  · rw [trans_newCircle _ (le_refl _)]
    norm_num [round64_zero]
  · rw [trans_newCircle _ (by norm_num)]
    norm_num [round64_one]
  · rw [trans_newCircle _ (by norm_num)]
    norm_num [round64_two]

/-- Witness of C5, amended: the transform at v = 1/3, where the sum is rounded,
and at v = 1/2, where it is exact. -/
theorem trans_eq_floor_rounded_witness :
    ((-1 : ℝ) ≤ 1 / 3 ∧ (1 / 3 : ℝ) ≤ 1 ∧
      client.trans client.newCircle (1 / 3 : ℝ)
        = ⌊client.round64 ((1 / 3 : ℝ) + 1) * (client.newCircle.Scale : ℝ) / 2⌋
            + client.newCircle.Border) ∧
    ((-1 : ℝ) ≤ 1 / 2 ∧ (1 / 2 : ℝ) ≤ 1 ∧ client.round64 ((1 / 2 : ℝ) + 1) = 1 / 2 + 1 ∧
      client.trans client.newCircle (1 / 2 : ℝ)
        = ⌊((1 / 2 : ℝ) + 1) * (client.newCircle.Scale : ℝ) / 2⌋
            + client.newCircle.Border) ∧
    |client.trans client.newCircle (1 / 3 : ℝ)
        - (⌊((1 / 3 : ℝ) + 1) * (client.newCircle.Scale : ℝ) / 2⌋
            + client.newCircle.Border)| ≤ 1 := by
  have hhalf : client.round64 ((1 / 2 : ℝ) + 1) = 1 / 2 + 1 :=
    round64_representable _ ⟨3, 51, by norm_num, by norm_num, by norm_num⟩
  exact ⟨⟨by norm_num, by norm_num,
      trans_eq_floor_rounded.2.2.1 (1 / 3) (by norm_num) (by norm_num)⟩,
    ⟨by norm_num, by norm_num, hhalf,
      trans_eq_floor_rounded.2.2.2.1 (1 / 2) (by norm_num) (by norm_num) hhalf⟩,
    trans_eq_floor_rounded.2.2.2.2.1 (1 / 3) (by norm_num) (by norm_num)⟩

/-- Bounds of the transform on [-1, 1]. -/
theorem trans_bounds (v : ℝ) (h1 : -1 ≤ v) (h2 : v ≤ 1) :
    64 ≤ client.trans client.newCircle v ∧ client.trans client.newCircle v ≤ 1088 := by
  rw [trans_newCircle v h1]
  have hr0 : 0 ≤ client.round64 (v + 1) := round64_nonneg _ (by linarith)
  have hr2 : client.round64 (v + 1) ≤ 2 := by
    have := round64_mono_nonneg (v + 1) 2 (by linarith) (by linarith)
    rwa [round64_two] at this
  have hlo : (0 : Int) ≤ ⌊client.round64 (v + 1) * 1024 / 2⌋ :=
    Int.floor_nonneg.mpr (by linarith)
  have hhi : ⌊client.round64 (v + 1) * 1024 / 2⌋ ≤ (1024 : Int) := by
    have : client.round64 (v + 1) * 1024 / 2 ≤ ((1024 : Int) : ℝ) := by push_cast; linarith
    exact Int.cast_le.mp (le_trans (Int.floor_le _) this)
  constructor <;> omega

/-- The transform is monotone from -1 on. -/
theorem trans_mono (v w : ℝ) (hv : -1 ≤ v) (hvw : v ≤ w) :
    client.trans client.newCircle v ≤ client.trans client.newCircle w := by
  rw [trans_newCircle v hv, trans_newCircle w (le_trans hv hvw)]
  have hr := round64_mono_nonneg (v + 1) (w + 1) (by linarith) (by linarith)
  have : ⌊client.round64 (v + 1) * 1024 / 2⌋ ≤ ⌊client.round64 (w + 1) * 1024 / 2⌋ :=
    Int.floor_mono (by linarith)
  omega

/-- C10: for every real v in [-1, 1] the transform gives 64 ≤ trans(v) ≤ 1088,
strictly below the canvas side 1152 of `newCircle`; for every duration d the
pixel of `server.position d` lies inside the image rectangle
[0, 1152) x [0, 1152); and `trans` is monotone non-decreasing on [-1, 1]. -/
theorem trans_inside_canvas :
    client.newCircle.Image = client.Rect 0 0 1152 1152 ∧
    (∀ v : ℝ, -1 ≤ v → v ≤ 1 →
      client.newCircle.Border ≤ client.trans client.newCircle v ∧
      client.trans client.newCircle v ≤ client.newCircle.Scale + client.newCircle.Border ∧
      64 ≤ client.trans client.newCircle v ∧
      client.trans client.newCircle v ≤ 1088 ∧
      client.trans client.newCircle v < client.newCircle.Image.MaxX ∧
      client.trans client.newCircle v < client.newCircle.Image.MaxY) ∧
    (∀ d : Int,
      client.newCircle.Image.contains
        (client.trans client.newCircle (server.position Real.cos Real.sin Real.pi d).X)
        (client.trans client.newCircle (server.position Real.cos Real.sin Real.pi d).Y)) ∧
    (∀ v w : ℝ, -1 ≤ v → v ≤ w → w ≤ 1 →
      client.trans client.newCircle v ≤ client.trans client.newCircle w) := by
  refine ⟨by decide, ?_, ?_, ?_⟩
  · intro v h1 h2
    obtain ⟨hlo, hhi⟩ := trans_bounds v h1 h2
    rw [newCircle_eq] at *
    simp only
    refine ⟨hlo, ?_, hlo, hhi, ?_, ?_⟩ <;> omega
  · intro d
    obtain ⟨_, hx1, hx2, hy1, hy2⟩ := position_unit d
    obtain ⟨hxl, hxh⟩ := trans_bounds _ hx1 hx2
    obtain ⟨hyl, hyh⟩ := trans_bounds _ hy1 hy2
    have hI : client.newCircle.Image = { MinX := 0, MinY := 0, MaxX := 1152, MaxY := 1152 } := by
      decide
    rw [hI]
    simp only [client.Rectangle.contains]
    refine ⟨?_, ?_, ?_, ?_⟩ <;> omega
  · intro v w hv hvw _
    exact trans_mono v w hv hvw

/-- Witness of C10: the bounds at v = 1/3 and monotonicity between -1/2 and 1/3. -/
theorem trans_inside_canvas_witness :
    ((-1 : ℝ) ≤ 1 / 3 ∧ (1 / 3 : ℝ) ≤ 1 ∧
      64 ≤ client.trans client.newCircle (1 / 3 : ℝ) ∧
      client.trans client.newCircle (1 / 3 : ℝ) ≤ 1088) ∧
    ((-1 : ℝ) ≤ -1 / 2 ∧ (-1 / 2 : ℝ) ≤ 1 / 3 ∧ (1 / 3 : ℝ) ≤ 1 ∧
      client.trans client.newCircle (-1 / 2 : ℝ) ≤ client.trans client.newCircle (1 / 3 : ℝ)) :=
  ⟨⟨by norm_num, by norm_num,
      (trans_inside_canvas.2.1 (1 / 3) (by norm_num) (by norm_num)).2.2.1,
      (trans_inside_canvas.2.1 (1 / 3) (by norm_num) (by norm_num)).2.2.2.1⟩,
    by norm_num, by norm_num, by norm_num,
    trans_inside_canvas.2.2.2 (-1 / 2) (1 / 3) (by norm_num) (by norm_num) (by norm_num)⟩

/-! ## The sketcher -/

/-- With the slot holding `l`, the loop draws the chain through `l` and the
points received until the channel closes, the context is done or nothing more
arrives. -/
theorem sketchLoop_some {α : Type} (tail : List (client.Recv α))
    (htail : ∀ last, client.sketchLoop last tail = []) (ps : List (client.point α))
    (l : client.point α) :
    client.sketchLoop (some l) (ps.map client.Recv.recv ++ tail) = (l :: ps).zip ps := by
  induction ps generalizing l with
  | nil => simpa using htail (some l)
  | cons p qs ih => simp [client.sketchLoop, ih p]

/-- Starting from the empty slot, the segments are the consecutive pairs. -/
theorem sketch_zip {α : Type} (tail : List (client.Recv α))
    (htail : ∀ last, client.sketchLoop last tail = []) (ps : List (client.point α)) :
    client.sketch (ps.map client.Recv.recv ++ tail) = ps.zip ps.tail := by
  cases ps with
  | nil => simpa [client.sketch] using htail none
  | cons p qs =>
    simp only [client.sketch, List.map_cons, List.cons_append, client.sketchLoop, List.tail_cons]
    exact sketchLoop_some tail htail qs p

/-- In the list of consecutive pairs each pair starts where the previous ends. -/
theorem zip_tail_chain {α : Type} (ps : List α) (l : α) :
    List.Chain' (fun a b : α × α => a.2 = b.1) ((l :: ps).zip ps) := by
  induction ps generalizing l with
  | nil => simp
  | cons p qs ih =>
    cases qs with
    | nil => simp
    | cons q rs =>
      have h := ih p
      simp only [List.zip_cons_cons] at h ⊢
      exact List.Chain'.cons rfl h

/-- C9: for every sequence of points p1, ..., pn received by `sketch` before
the channel closes (or the context is done), the segments passed to
`circle.line` are exactly (p1,p2), ..., (p(n-1),pn) in that order: n - 1 of
them (none for n = 0 or n = 1), each starting where the previous one ended. -/
theorem sketch_draws_consecutive_segments {α : Type} (ps : List (client.point α))
    (rest : List (client.Recv α)) :
    client.sketch (ps.map client.Recv.recv ++ client.Recv.closed :: rest) = ps.zip ps.tail ∧
    client.sketch (ps.map client.Recv.recv ++ client.Recv.done :: rest) = ps.zip ps.tail ∧
    client.sketch (ps.map client.Recv.recv) = ps.zip ps.tail ∧
    (client.sketch (ps.map client.Recv.recv ++ client.Recv.closed :: rest)).length
      = ps.length - 1 ∧
    List.Chain' (fun a b : client.point α × client.point α => a.2 = b.1)
      (client.sketch (ps.map client.Recv.recv ++ client.Recv.closed :: rest)) := by
  have hc : ∀ last : Option (client.point α),
      client.sketchLoop last (client.Recv.closed :: rest) = [] := by
    intro last; simp [client.sketchLoop]
  have hd : ∀ last : Option (client.point α),
      client.sketchLoop last (client.Recv.done :: rest) = [] := by
    intro last; simp [client.sketchLoop]
  have hn : ∀ last : Option (client.point α), client.sketchLoop last [] = [] := by
    intro last; simp [client.sketchLoop]
  have h0 := sketch_zip [] hn ps
  rw [List.append_nil] at h0
  refine ⟨sketch_zip _ hc ps, sketch_zip _ hd ps, h0, ?_, ?_⟩
  · rw [sketch_zip _ hc ps]
    simp
  · rw [sketch_zip _ hc ps]
    cases ps with
    | nil => simp
    | cons p qs => exact zip_tail_chain qs p

/-! ## The session handler -/

/-- The dispatch of one command when no socket operation fails. -/
theorem dispatch_ok (L : List String) (i : Nat) (s : server.Session) (cmd : String) :
    server.dispatch (server.Net.ok L) i s cmd =
      if server.TrimSpace cmd = "start" then
        server.Step.next
          { out := s.out ++ "OK\n", cancels := s.cancels ++ [server.Emitter.active] }
      else if server.TrimSpace cmd = "stop" then
        server.Step.next { out := s.out ++ "OK\n", cancels := s.cancels.map server.cancel }
      else if server.TrimSpace cmd = "bye" then
        server.Step.halt { out := s.out ++ "OK\n", cancels := s.cancels } true
          server.Outcome.returned
      else
        server.Step.next
          { out := s.out ++ ("Unknown command: " ++ cmd ++ ".\n"), cancels := s.cancels } := by
  simp [server.dispatch, server.Net.ok]

/-- A command other than `bye` keeps the loop running when nothing fails. -/
theorem dispatch_ok_next (L : List String) (i : Nat) (s : server.Session) (cmd : String)
    (h : server.TrimSpace cmd ≠ "bye") :
    ∃ s1, server.dispatch (server.Net.ok L) i s cmd = server.Step.next s1 := by
  rw [dispatch_ok]
  by_cases h1 : server.TrimSpace cmd = "start"
  · exact ⟨_, by rw [if_pos h1]⟩
  · by_cases h2 : server.TrimSpace cmd = "stop"
    · exact ⟨_, by rw [if_neg h1, if_pos h2]⟩
    · exact ⟨_, by rw [if_neg h1, if_neg h2, if_neg h]⟩

/-- Commands without a `bye` are all processed: the loop continues on what
follows them from the state reached when the input ends after them. -/
theorem serveLoop_append (L : List String) (cmds rest : List String)
    (h : ∀ l ∈ cmds, server.TrimSpace l ≠ "bye") (i : Nat) (s : server.Session) :
    server.serveLoop (server.Net.ok L) i (cmds ++ rest) s
      = server.serveLoop (server.Net.ok L) (i + cmds.length) rest
          (server.serveLoop (server.Net.ok L) i cmds s).session := by
  induction cmds generalizing i s with
  | nil => simp [server.serveLoop]
  | cons c cs ih =>
    obtain ⟨s1, hs1⟩ := dispatch_ok_next L i s c (h c (List.mem_cons_self _ _))
    have ih1 := ih (fun l hl => h l (List.mem_cons_of_mem _ hl)) (i + 1) s1
    have e : i + 1 + cs.length = i + (cs.length + 1) := by omega
    rw [e] at ih1
    simp only [List.cons_append, server.serveLoop, hs1, List.length_cons]
    exact ih1

/-- The bytes written and the lines left unread, for commands that trim to
`start`, `stop` or `bye`. -/
theorem serveLoop_known (L : List String) (lines : List String)
    (h : ∀ l ∈ lines, server.TrimSpace l = "start" ∨ server.TrimSpace l = "stop"
      ∨ server.TrimSpace l = "bye") (i : Nat) (s : server.Session) :
    (server.serveLoop (server.Net.ok L) i lines s).session.out
        = s.out ++ server.okReplies (server.uptoBye lines).length ∧
    (server.serveLoop (server.Net.ok L) i lines s).unread
        = lines.drop (server.uptoBye lines).length := by
  induction lines generalizing i s with
  | nil => simp [server.serveLoop, server.uptoBye, server.okReplies]
  | cons c cs ih =>
    have ihc := fun j t => ih (fun l hl => h l (List.mem_cons_of_mem _ hl)) j t
    simp only [server.serveLoop, dispatch_ok, server.uptoBye]
    rcases h c (List.mem_cons_self _ _) with hc | hc | hc
    · have e1 : ¬ ("start" = "bye") := by decide
      simp only [hc, if_true, e1, if_false, List.length_cons, server.okReplies, List.drop_succ_cons]
      obtain ⟨h1, h2⟩ := ihc (i + 1)
        { out := s.out ++ "OK\n", cancels := s.cancels ++ [server.Emitter.active] }
      exact ⟨by rw [h1, String.append_assoc], h2⟩
    · have e1 : ¬ ("stop" = "bye") := by decide
      have e2 : ¬ ("stop" = "start") := by decide
      simp only [hc, if_true, e1, e2, if_false, List.length_cons, server.okReplies,
        List.drop_succ_cons]
      obtain ⟨h1, h2⟩ := ihc (i + 1)
        { out := s.out ++ "OK\n", cancels := s.cancels.map server.cancel }
      exact ⟨by rw [h1, String.append_assoc], h2⟩
    · have e1 : ¬ ("bye" = "stop") := by decide
      have e2 : ¬ ("bye" = "start") := by decide
      simp [hc, e1, e2, server.okReplies]

/-- C2: for command lines that all trim to `start`, `stop` or `bye`, with every
socket operation succeeding, the bytes written to the control connection are
`HELLO\n` followed by one `OK\n` for each command up to and including the
first `bye` and nothing else; the commands after the first `bye` stay unread. -/
theorem serve_replies_ok_until_bye (lines : List String)
    (h : ∀ l ∈ lines, server.TrimSpace l = "start" ∨ server.TrimSpace l = "stop"
      ∨ server.TrimSpace l = "bye") :
    (server.serve (server.Net.ok lines)).session.out
        = "HELLO\n" ++ server.okReplies (server.uptoBye lines).length ∧
    (server.serve (server.Net.ok lines)).unread = lines.drop (server.uptoBye lines).length ∧
    server.uptoBye lines = lines.take (server.uptoBye lines).length := by
  have hl := serveLoop_known lines lines h 0 { out := "HELLO\n", cancels := [] }
  refine ⟨?_, ?_, ?_⟩
  · simpa [server.serve, server.Net.ok] using hl.1
  · simpa [server.serve, server.Net.ok] using hl.2
  · clear hl h
    induction lines with
    | nil => simp [server.uptoBye]
    | cons c cs ih =>
      by_cases hc : server.TrimSpace c = "bye"
      · simp [server.uptoBye, hc]
      · simp only [server.uptoBye, hc, if_false, List.length_cons, List.take_succ_cons]
        rw [← ih]

/-- Witness of C2: `start`, `stop`, `bye` and a `start` that is never read. -/
theorem serve_replies_ok_until_bye_witness :
    (server.serve (server.Net.ok ["start\n", " stop\n", "bye\n", "start\n"])).session.out
        = "HELLO\n" ++ server.okReplies
            (server.uptoBye ["start\n", " stop\n", "bye\n", "start\n"]).length ∧
    (server.serve (server.Net.ok ["start\n", " stop\n", "bye\n", "start\n"])).unread
        = ["start\n", " stop\n", "bye\n", "start\n"].drop
            (server.uptoBye ["start\n", " stop\n", "bye\n", "start\n"]).length ∧
    server.uptoBye ["start\n", " stop\n", "bye\n", "start\n"]
        = ["start\n", " stop\n", "bye\n", "start\n"].take
            (server.uptoBye ["start\n", " stop\n", "bye\n", "start\n"]).length :=
  serve_replies_ok_until_bye ["start\n", " stop\n", "bye\n", "start\n"] (by decide)

/-- Counting the running emitters after a `start`. -/
theorem activeCount_append_active (cs : List server.Emitter) :
    server.activeCount (cs ++ [server.Emitter.active]) = server.activeCount cs + 1 := by
  simp [server.activeCount]

/-- After `stop` every handle of the list is cancelled. -/
theorem activeCount_map_cancel (cs : List server.Emitter) :
    server.activeCount (cs.map server.cancel) = 0 := by
  simp [server.activeCount, server.cancel]

/-- The emitters running when the input ends, for commands without `bye`. -/
theorem serveLoop_activeCount (L : List String) (cmds : List String)
    (h : ∀ l ∈ cmds, server.TrimSpace l ≠ "bye") (i : Nat) (s : server.Session) :
    server.activeCount (server.serveLoop (server.Net.ok L) i cmds s).session.cancels
      = cmds.foldl
          (fun n l => if server.TrimSpace l = "start" then n + 1
            else if server.TrimSpace l = "stop" then 0 else n)
          (server.activeCount s.cancels) := by
  induction cmds generalizing i s with
  | nil => simp [server.serveLoop]
  | cons c cs ih =>
    have ihc := fun j t => ih (fun l hl => h l (List.mem_cons_of_mem _ hl)) j t
    have hb := h c (List.mem_cons_self _ _)
    simp only [server.serveLoop, dispatch_ok, List.foldl_cons]
    by_cases h1 : server.TrimSpace c = "start"
    · simp only [h1, if_true]
      rw [ihc, activeCount_append_active]
    · by_cases h2 : server.TrimSpace c = "stop"
      · have e2 : ¬ ("stop" = "start") := by decide
        simp only [h2, e2, if_true, if_false]
        rw [ihc, activeCount_map_cancel]
      · simp only [h1, h2, hb, if_false]
        rw [ihc]

/-- The handle list when the input ends, for `start` and `stop` commands: one
handle per `start`. -/
theorem serveLoop_cancels_length (L : List String) (cmds : List String)
    (h : ∀ l ∈ cmds, server.TrimSpace l = "start" ∨ server.TrimSpace l = "stop")
    (i : Nat) (s : server.Session) :
    (server.serveLoop (server.Net.ok L) i cmds s).session.cancels.length
      = s.cancels.length + cmds.countP (fun l => server.TrimSpace l = "start") := by
  induction cmds generalizing i s with
  | nil => simp [server.serveLoop]
  | cons c cs ih =>
    have ihc := fun j t => ih (fun l hl => h l (List.mem_cons_of_mem _ hl)) j t
    simp only [server.serveLoop, dispatch_ok]
    rcases h c (List.mem_cons_self _ _) with hc | hc
    · simp only [hc, if_true]
      rw [ihc]
      simp [List.countP_cons, hc]
      omega
    · have e2 : ¬ ("stop" = "start") := by decide
      simp only [hc, e2, if_true, if_false]
      rw [ihc]
      simp [List.countP_cons, hc]

/-- The loop does not look at the field `lines` of the environment. -/
theorem serveLoop_ok_lines (L M : List String) (lines : List String) (i : Nat)
    (s : server.Session) :
    server.serveLoop (server.Net.ok L) i lines s = server.serveLoop (server.Net.ok M) i lines s := by
  induction lines generalizing i s with
  | nil => simp [server.serveLoop]
  | cons c cs ih =>
    simp only [server.serveLoop, dispatch_ok]
    split <;> simp_all

/-- The function `serve` when no socket operation fails. -/
theorem serve_ok (lines : List String) :
    server.serve (server.Net.ok lines)
      = server.serveLoop (server.Net.ok []) 0 lines { out := "HELLO\n", cancels := [] } := by
  simp only [server.serve, server.Net.ok, Bool.false_eq_true, if_false]
  exact serveLoop_ok_lines lines [] lines 0 _

/-- The session state after one more `stop`. -/
theorem serve_append_stop (cmds : List String) (st : String)
    (h : ∀ l ∈ cmds, server.TrimSpace l ≠ "bye") (hst : server.TrimSpace st = "stop") :
    (server.serve (server.Net.ok (cmds ++ [st]))).session.cancels
      = (server.serve (server.Net.ok cmds)).session.cancels.map server.cancel := by
  have e2 : ¬ ("stop" = "start") := by decide
  rw [serve_ok, serve_ok, serveLoop_append _ cmds [st] h]
  simp [server.serveLoop, dispatch_ok, hst, e2]

/-- C6: processing `stop` after any sequence of `start` and `stop` commands
leaves zero active emitters: every emitter spawned so far (one per `start`) is
cancelled, the handle list keeps its length, and an immediately following
`stop` changes nothing. -/
theorem stop_cancels_every_emitter (cmds : List String) (stop1 stop2 : String)
    (h : ∀ l ∈ cmds, server.TrimSpace l = "start" ∨ server.TrimSpace l = "stop")
    (h1 : server.TrimSpace stop1 = "stop") (h2 : server.TrimSpace stop2 = "stop") :
    server.activeCount (server.serve (server.Net.ok (cmds ++ [stop1]))).session.cancels = 0 ∧
    (∀ e ∈ (server.serve (server.Net.ok (cmds ++ [stop1]))).session.cancels,
      e = server.Emitter.cancelled) ∧
    (server.serve (server.Net.ok (cmds ++ [stop1]))).session.cancels.length
      = (server.serve (server.Net.ok cmds)).session.cancels.length ∧
    (server.serve (server.Net.ok cmds)).session.cancels.length
      = cmds.countP (fun l => server.TrimSpace l = "start") ∧
    (server.serve (server.Net.ok (cmds ++ [stop1] ++ [stop2]))).session.cancels
      = (server.serve (server.Net.ok (cmds ++ [stop1]))).session.cancels := by
  have hb : ∀ l ∈ cmds, server.TrimSpace l ≠ "bye" := by
    intro l hl hbye
    rcases h l hl with hc | hc <;> rw [hbye] at hc <;> revert hc <;> decide
  have hb1 : ∀ l ∈ cmds ++ [stop1], server.TrimSpace l ≠ "bye" := by
    intro l hl
    rcases List.mem_append.mp hl with hl | hl
    · exact hb l hl
    · rw [List.mem_singleton.mp hl, h1]; decide
  have e1 := serve_append_stop cmds stop1 hb h1
  have e2 := serve_append_stop (cmds ++ [stop1]) stop2 hb1 h2
  refine ⟨?_, ?_, ?_, ?_, ?_⟩
  · rw [e1]; exact activeCount_map_cancel _
  · rw [e1]; intro e he
    obtain ⟨a, _, ha⟩ := List.mem_map.mp he
    rw [← ha]; rfl
  · rw [e1, List.length_map]
  · rw [serve_ok, serveLoop_cancels_length [] cmds h]; simp
  · rw [e2, e1, List.map_map]
    apply List.map_congr_left
    intro a _
    rfl

/-- Witness of C6: two `start`s, a `stop`, a third `start`, then `stop` twice. -/
theorem stop_cancels_every_emitter_witness :
    server.activeCount (server.serve (server.Net.ok
      (["start\n", "start\n", "stop\n", "start\n"] ++ ["stop\n"]))).session.cancels = 0 ∧
    (∀ e ∈ (server.serve (server.Net.ok
      (["start\n", "start\n", "stop\n", "start\n"] ++ ["stop\n"]))).session.cancels,
      e = server.Emitter.cancelled) ∧
    (server.serve (server.Net.ok
      (["start\n", "start\n", "stop\n", "start\n"] ++ ["stop\n"]))).session.cancels.length
      = (server.serve (server.Net.ok
          ["start\n", "start\n", "stop\n", "start\n"])).session.cancels.length ∧
    (server.serve (server.Net.ok
        ["start\n", "start\n", "stop\n", "start\n"])).session.cancels.length
      = ["start\n", "start\n", "stop\n", "start\n"].countP
          (fun l => server.TrimSpace l = "start") ∧
    (server.serve (server.Net.ok
      (["start\n", "start\n", "stop\n", "start\n"] ++ ["stop\n"] ++ ["stop \n"]))).session.cancels
      = (server.serve (server.Net.ok
          (["start\n", "start\n", "stop\n", "start\n"] ++ ["stop\n"]))).session.cancels :=
  stop_cancels_every_emitter ["start\n", "start\n", "stop\n", "start\n"] "stop\n" "stop \n"
    (by decide) (by decide) (by decide)

/-- C7, as stated, fails: after `start`, `bye` the session has ended (the reply
is written, the control connection is closed, `serve` has returned) and the
emitter spawned by `start` is still active. -/
theorem emitter_outlives_session :
    (server.serve (server.Net.ok ["start\n", "bye\n"])).closed = true ∧
    (server.serve (server.Net.ok ["start\n", "bye\n"])).outcome = server.Outcome.returned ∧
    (server.serve (server.Net.ok ["start\n", "bye\n"])).session.out = "HELLO\nOK\nOK\n" ∧
    (server.serve (server.Net.ok ["start\n", "bye\n"])).session.cancels
      = [server.Emitter.active] ∧
    ¬ (server.activeCount
        (server.serve (server.Net.ok ["start\n", "bye\n"])).session.cancels = 0) := by
  decide

/-- The handle list when the input ends, for commands without `bye`: the
handles already there, cancelled if a `stop` occurs, followed by one handle per
`start`, cancelled exactly when a `stop` follows that `start`. -/
theorem serveLoop_cancels (L : List String) (cmds : List String)
    (h : ∀ l ∈ cmds, server.TrimSpace l ≠ "bye") (i : Nat) (s : server.Session) :
    (server.serveLoop (server.Net.ok L) i cmds s).session.cancels
      = (if cmds.any (fun l => server.TrimSpace l = "stop") then s.cancels.map server.cancel
          else s.cancels) ++ server.emittersAfter cmds := by
  induction cmds generalizing i s with
  | nil => simp [server.serveLoop, server.emittersAfter]
  | cons c cs ih =>
    have ihc := fun j t => ih (fun l hl => h l (List.mem_cons_of_mem _ hl)) j t
    have hb := h c (List.mem_cons_self _ _)
    simp only [server.serveLoop, dispatch_ok, server.emittersAfter, List.any_cons]
    by_cases h1 : server.TrimSpace c = "start"
    · have e1 : ¬ ("start" = "stop") := by decide
      simp only [h1, e1, if_true, decide_False, Bool.false_or]
      rw [ihc]
      by_cases hs : cs.any (fun l => decide (server.TrimSpace l = "stop")) = true
      · simp [hs, server.cancel]
      · simp [hs]
    · by_cases h2 : server.TrimSpace c = "stop"
      · have e2 : ¬ ("stop" = "start") := by decide
        simp only [h2, e2, if_true, if_false, decide_True, Bool.true_or]
        rw [ihc]
        have hmm : (s.cancels.map server.cancel).map server.cancel
            = s.cancels.map server.cancel := by
          rw [List.map_map]; apply List.map_congr_left; intro a _; rfl
        by_cases hs : cs.any (fun l => decide (server.TrimSpace l = "stop")) = true
        · simp only [hs, if_true, hmm]
        · simp only [hs, if_false]
          simp
      · simp only [h1, h2, hb, if_false, decide_False, Bool.false_or]
        rw [ihc]

/-- C7, amended: `bye` is answered `OK\n`, the control connection is closed and
`serve` returns, without any cancel handle being called: the handles are as
they were before `bye`, so the emitter spawned by a `start` is still active
after the session has ended exactly when no `stop` follows that `start`, and
the number of active emitters is the number of `start`s after the last `stop`;
the lines after `bye` play no part. -/
theorem bye_cancels_no_emitter (cmds : List String) (bye : String) (rest : List String)
    (h : ∀ l ∈ cmds, server.TrimSpace l ≠ "bye") (hbye : server.TrimSpace bye = "bye") :
    (server.serve (server.Net.ok (cmds ++ bye :: rest))).closed = true ∧
    (server.serve (server.Net.ok (cmds ++ bye :: rest))).outcome = server.Outcome.returned ∧
    (server.serve (server.Net.ok (cmds ++ bye :: rest))).unread = rest ∧
    (server.serve (server.Net.ok (cmds ++ bye :: rest))).session.out
      = (server.serve (server.Net.ok cmds)).session.out ++ "OK\n" ∧
    (server.serve (server.Net.ok (cmds ++ bye :: rest))).session.cancels
      = (server.serve (server.Net.ok cmds)).session.cancels ∧
    (server.serve (server.Net.ok (cmds ++ bye :: rest))).session.cancels
      = server.emittersAfter cmds ∧
    server.activeCount (server.serve (server.Net.ok (cmds ++ bye :: rest))).session.cancels
      = server.startsSinceStop cmds := by
  have e1 : ¬ ("bye" = "start") := by decide
  have e2 : ¬ ("bye" = "stop") := by decide
  have hr : server.serve (server.Net.ok (cmds ++ bye :: rest))
      = { session := { out := (server.serve (server.Net.ok cmds)).session.out ++ "OK\n",
                       cancels := (server.serve (server.Net.ok cmds)).session.cancels },
          closed := true, outcome := server.Outcome.returned, unread := rest } := by
    rw [serve_ok, serve_ok, serveLoop_append _ cmds (bye :: rest) h]
    simp [server.serveLoop, dispatch_ok, hbye, e1, e2]
  rw [hr]
  refine ⟨rfl, rfl, rfl, rfl, rfl, ?_, ?_⟩
  · simp only
    rw [serve_ok, serveLoop_cancels [] cmds h]
    simp
  · simp only
    rw [serve_ok, serveLoop_activeCount [] cmds h]
    rfl

/-- Witness of C7, amended: of three emitters, the one started after the last
`stop` is still active after `bye`. -/
theorem bye_cancels_no_emitter_witness :
    (server.serve (server.Net.ok
      (["start\n", "start\n", "stop\n", "foo\n", "start\n"]
        ++ "bye\n" :: ["start\n"]))).session.cancels
      = [server.Emitter.cancelled, server.Emitter.cancelled, server.Emitter.active] ∧
    server.emittersAfter ["start\n", "start\n", "stop\n", "foo\n", "start\n"]
      = [server.Emitter.cancelled, server.Emitter.cancelled, server.Emitter.active] ∧
    server.startsSinceStop ["start\n", "start\n", "stop\n", "foo\n", "start\n"] = 1 ∧
    (server.serve (server.Net.ok
      (["start\n", "start\n", "stop\n", "foo\n", "start\n"] ++ "bye\n" :: ["start\n"]))).closed
      = true ∧
    (server.serve (server.Net.ok
      (["start\n", "start\n", "stop\n", "foo\n", "start\n"]
        ++ "bye\n" :: ["start\n"]))).session.out
      = (server.serve (server.Net.ok
          ["start\n", "start\n", "stop\n", "foo\n", "start\n"])).session.out ++ "OK\n" :=
  have w := bye_cancels_no_emitter ["start\n", "start\n", "stop\n", "foo\n", "start\n"] "bye\n"
    ["start\n"] (by decide) (by decide)
  ⟨by decide, by decide, by decide, w.1, w.2.2.2.1⟩

/-- C1 on the code: for the line `foo\n` the handler echoes the line as read,
linefeed included, so the reply is `Unknown command: foo\n.\n`, two lines, and
not the single line `Unknown command: foo.\n`; the session stays open and the
following `bye\n` is answered `OK\n`. -/
theorem unknown_command_echoes_raw_line :
    (server.serve (server.Net.ok ["foo\n", "bye\n"])).session.out
      = "HELLO\n" ++ "Unknown command: foo\n.\n" ++ "OK\n" ∧
    (server.serve (server.Net.ok ["foo\n", "bye\n"])).session.out
      ≠ "HELLO\n" ++ ("Unknown command: " ++ server.TrimSpace "foo\n" ++ ".\n") ++ "OK\n" ∧
    server.TrimSpace "foo\n" = "foo" ∧
    (server.serve (server.Net.ok ["foo\n", "bye\n"])).closed = true ∧
    (server.serve (server.Net.ok ["foo\n", "bye\n"])).unread = [] := by
  decide

/-- C8 on the code: when the read of a command fails (here the peer closes the
connection after the greeting, or after a `start`), `serve` stops through
`log.Fatal`, which ends the whole server process, not through a `return`. -/
theorem read_failure_exits_process :
    (server.serve (server.Net.ok [])).outcome = server.Outcome.fatal ∧
    (server.serve (server.Net.ok [])).session.out = "HELLO\n" ∧
    (server.serve (server.Net.ok ["start\n"])).outcome = server.Outcome.fatal ∧
    (server.serve (server.Net.ok ["start\n"])).outcome ≠ server.Outcome.returned := by
  decide
